import Mathlib

/-!
Verification of the BloatBuster classification and command-generation engine.

The TypeScript sources are shallowly embedded: JavaScript strings are
modelled as lists of characters (`Str`), arrays as Lean lists, `Set` / `Map`
lookups as list membership / association-list lookup, and the stable
`Array.prototype.sort` as `List.mergeSort`.  Fallible or optional values are
modelled with `Option`.
-/

set_option maxHeartbeats 1000000

/-- A JavaScript string, modelled as its sequence of characters. -/
abbrev Str := List Char

/-- Conversion from a Lean string literal to the character-list model. -/
def str (s : String) : Str := s.data

/-- Model of JavaScript `String.prototype.trim`: drop whitespace from both
ends of the string. -/
def jsTrim (l : Str) : Str :=
  ((l.dropWhile Char.isWhitespace).reverse.dropWhile Char.isWhitespace).reverse

/-- Model of the JavaScript string coercion to `Bool` composed with `||` on
an optional string: an absent (`none`) or empty string is falsy and selects
the fallback. -/
def jsOrS (x : Option Str) (y : Str) : Str :=
  match x with
  | none => y
  | some s => if s = [] then y else s

/-- Model of JavaScript `String.prototype.toLowerCase` (ASCII range). -/
def jsToLower (l : Str) : Str := l.map Char.toLower

/-- The per-line strip in `parsePackageList`:
`line.startsWith("package:") ? line.slice(8) : line`. -/
def stripLine (line : Str) : Str :=
  if (str "package:").isPrefixOf line then line.drop 8 else line

/-- `src/utils/packageUtils.ts` (`parsePackageList`): trim the input, split on
newlines, trim each line, drop empty lines, strip a leading `package:`
prefix, and drop lines that became empty. -/
def parsePackageList (input : Str) : List Str :=
  (((((jsTrim input).splitOn (Char.ofNat 10)).map jsTrim).filter
      (fun line => line ≠ [])).map stripLine).filter
  (fun line => line ≠ [])

/-- `src/types.ts` (`PackageInfo`): a bloatware database record with an
identifier and optional display name and description. -/
structure PackageInfo where
  appID : Str
  appName : Option Str
  description : Option Str
deriving DecidableEq

/-- `src/types.ts` (`PackageData`): either a bare identifier or a full
`PackageInfo` record. -/
inductive PackageData where
  | id : Str → PackageData
  | info : PackageInfo → PackageData
deriving DecidableEq

/-- `src/types.ts` (`DeviceData`): the reference database of recognised and
bloatware packages. -/
structure DeviceData where
  recognisedPackages : List Str
  bloatwarePackages : List PackageData
deriving DecidableEq

/-- `src/types.ts` (`DetectedPackage`): a classified package. The `category`
and rating fields are kept as strings, as in the JavaScript runtime. -/
structure DetectedPackage where
  packageName : Str
  appName : Str
  description : Str
  safetyRating : Option Str
  removalImpact : Option Str
  packageCategory : Option Str
  category : Str
  selected : Bool
deriving DecidableEq

/-- Modelled from the spec: the optional metadata side table
(`src/data/metadata.ts` is not among the core sources; §3 of the spec lists
its fields, all optional, keyed by package identifier).  `getPackageMetadata`
is modelled as an arbitrary lookup function passed to the classifier. -/
structure MetaEntry where
  appName : Option Str
  description : Option Str
  safetyRating : Option Str
  removalImpact : Option Str
  category : Option Str
deriving DecidableEq

/-- `src/utils/packageUtils.ts` (`PackageMetadata`): the internal record
stored in `bloatwareMetadataMap`. -/
structure PackageMetadata where
  appName : Str
  description : Str
deriving DecidableEq

/-- The identifier of a `PackageData` entry
(`typeof item === "string" ? item : item.appID`). -/
def packageId : PackageData → Str
  | .id s => s
  | .info i => i.appID

/-- The contents of `bloatwarePackageSet`: all bloatware identifiers. -/
def bloatwareIds (items : List PackageData) : List Str :=
  items.map packageId

/-- Association-list lookup keyed by `Str`, modelling `Map.get`. -/
def lookupStr {β : Type} : List (Str × β) → Str → Option β
  | [], _ => none
  | (k, v) :: rest, key => if k = key then some v else lookupStr rest key

/-- The contents of `bloatwareMetadataMap`, as an association list.  Entries
are pushed to the front so that a later `Map.set` on the same key shadows an
earlier one. -/
def bloatwareMetadataList (items : List PackageData) : List (Str × PackageMetadata) :=
  items.foldl
    (fun acc item =>
      match item with
      | .id _ => acc
      | .info i =>
          (i.appID, { appName := jsOrS i.appName i.appID
                      description := jsOrS i.description [] }) :: acc)
    []

/-- `BRAND_PREFIXES` from `src/utils/packageUtils.ts`. -/
def BRAND_PREFIXES : List Str :=
  [str "com.samsung.", str "com.skms.", str "com.sds.", str "com.sec.",
   str "com.xiaomi.", str "com.miui.", str "com.mi.", str "com.huawei.",
   str "com.oppo.", str "com.vivo.", str "com.oneplus.", str "com.google.",
   str "com.lge.", str "com.motorola.", str "com.asus.", str "com.sony.",
   str "com.nokia.", str "com.facebook.", str "com.hihonor."]

/-- `CHIPSET_PREFIXES` from `src/utils/packageUtils.ts`. -/
def CHIPSET_PREFIXES : List Str :=
  [str "com.qualcomm.", str "com.qti.", str "vendor.qti.",
   str "com.mediatek.", str "org.codeaurora."]

/-- `categorisePackage`: lowercase the identifier, test the brand list, then
the chipset list, otherwise `generic`. -/
def categorisePackage (packageName : Str) : Str :=
  let lower := jsToLower packageName
  if BRAND_PREFIXES.any (fun p => p.isPrefixOf lower) then str "brand"
  else if CHIPSET_PREFIXES.any (fun p => p.isPrefixOf lower) then str "chipset"
  else str "generic"

/-- Fallback description for recognised packages. -/
def recognisedFallback : Str :=
  str "Recognised as a legitimate application. Not identified as bloatware, but can be removed if desired."

/-- Fallback description for unrecognised packages. -/
def suspiciousFallback : Str :=
  str "Unrecognised package - not in our verified database. Research carefully before removing."

/-- The per-identifier classification of `detectBloatware`: recognised check,
then bloatware check, then the suspicious fallback. -/
def classifyOne (getMeta : Str → Option MetaEntry) (dd : DeviceData)
    (packageName : Str) : DetectedPackage :=
  let meta := getMeta packageName
  if packageName ∈ dd.recognisedPackages then
    { packageName := packageName
      appName := jsOrS (meta.bind MetaEntry.appName) packageName
      description := jsOrS (meta.bind MetaEntry.description) recognisedFallback
      category := str "system"
      selected := false
      safetyRating := meta.bind MetaEntry.safetyRating
      removalImpact := meta.bind MetaEntry.removalImpact
      packageCategory := meta.bind MetaEntry.category }
  else if packageName ∈ bloatwareIds dd.bloatwarePackages then
    let bloatMeta := lookupStr (bloatwareMetadataList dd.bloatwarePackages) packageName
    { packageName := packageName
      appName := jsOrS (meta.bind MetaEntry.appName)
        (jsOrS (bloatMeta.map PackageMetadata.appName) packageName)
      description := jsOrS (meta.bind MetaEntry.description)
        (jsOrS (bloatMeta.map PackageMetadata.description) [])
      category := categorisePackage packageName
      selected := true
      safetyRating := meta.bind MetaEntry.safetyRating
      removalImpact := meta.bind MetaEntry.removalImpact
      packageCategory := meta.bind MetaEntry.category }
  else
    { packageName := packageName
      appName := jsOrS (meta.bind MetaEntry.appName) packageName
      description := jsOrS (meta.bind MetaEntry.description) suspiciousFallback
      category := str "suspicious"
      selected := false
      safetyRating := meta.bind MetaEntry.safetyRating
      removalImpact := meta.bind MetaEntry.removalImpact
      packageCategory := meta.bind MetaEntry.category }

/-- The main loop of `detectBloatware`, carrying `processedPackages`. -/
def detectGo (getMeta : Str → Option MetaEntry) (dd : DeviceData) :
    List Str → List Str → List DetectedPackage
  | [], _ => []
  | packageName :: rest, processed =>
    if packageName ∈ processed then detectGo getMeta dd rest processed
    else classifyOne getMeta dd packageName ::
      detectGo getMeta dd rest (packageName :: processed)

/-- `detectBloatware` from `src/utils/packageUtils.ts`. -/
def detectBloatware (getMeta : Str → Option MetaEntry)
    (installedPackages : List Str) (deviceData : DeviceData) : List DetectedPackage :=
  detectGo getMeta deviceData installedPackages []

/-- The command triple pushed for a selected package in the `commands`
`useMemo` of `src/App.tsx`. -/
def commandTriple (p : DetectedPackage) : List Str :=
  [str "pm disable-user --user 0 " ++ p.packageName,
   str "pm clear --user 0 " ++ p.packageName,
   str "pm uninstall --user 0 " ++ p.packageName]

/-- One iteration of the command-building loop in `src/App.tsx`. -/
def commandsStep (acc : List Str) (pkg : DetectedPackage) : List Str :=
  if pkg.selected then acc ++ commandTriple pkg else acc

/-- The `commands` computation of `src/App.tsx`: fold over the detected
packages, appending the three removal commands for each selected one. -/
def commandsOf (detectedPackages : List DetectedPackage) : List Str :=
  detectedPackages.foldl commandsStep []

/-- `categoryLabels` from `src/utils/packageUtils.ts`, as an association
list. -/
def categoryLabelsList : List (Str × Str) :=
  [(str "brand", str "Brand-Specific Bloatware"),
   (str "chipset", str "Chipset-Specific Bloatware"),
   (str "generic", str "Generic Bloatware"),
   (str "suspicious", str "Suspicious Packages"),
   (str "system", str "Other Installed Apps")]

/-- `categoryLabels[pkg.category] || pkg.category`. -/
def categoryLabel (c : Str) : Str :=
  jsOrS (lookupStr categoryLabelsList c) c

/-- `categoryOrderMap` from `src/utils/packageUtils.ts`. -/
def categoryOrderList : List (Str × Nat) :=
  [(str "brand", 0), (str "chipset", 1), (str "generic", 2),
   (str "suspicious", 3), (str "system", 4)]

/-- `DEFAULT_CATEGORY_PRIORITY` from `src/utils/packageUtils.ts`. -/
def DEFAULT_CATEGORY_PRIORITY : Nat := 999

/-- `categoryOrderMap.get(c) ?? DEFAULT_CATEGORY_PRIORITY`. -/
def categoryPriority (c : Str) : Nat :=
  (lookupStr categoryOrderList c).getD DEFAULT_CATEGORY_PRIORITY

/-- The sort in `groupByCategory`: a stable sort on category priority.
`[...packages].sort((a, b) => order(a) - order(b))` is modelled by the
stable `List.mergeSort`. -/
def sortedByPriority (packages : List DetectedPackage) : List DetectedPackage :=
  packages.mergeSort
    (fun a b => decide (categoryPriority a.category ≤ categoryPriority b.category))

/-- One step of the grouping loop: push `pkg` onto the group keyed by
`label`, creating the group at the end if absent (JavaScript `Map`
insertion order). -/
def groupsInsert (groups : List (Str × List DetectedPackage)) (label : Str)
    (pkg : DetectedPackage) : List (Str × List DetectedPackage) :=
  match groups with
  | [] => [(label, [pkg])]
  | (l, ps) :: rest =>
    if l = label then (l, ps ++ [pkg]) :: rest
    else (l, ps) :: groupsInsert rest label pkg

/-- `groupByCategory` from `src/utils/packageUtils.ts`: stable-sort by
category priority, then bucket into a label-keyed insertion-ordered map. -/
def groupByCategory (packages : List DetectedPackage) :
    List (Str × List DetectedPackage) :=
  (sortedByPriority packages).foldl
    (fun groups pkg => groupsInsert groups (categoryLabel pkg.category) pkg) []

/-- `groups.get(category) || []` in `src/components/PackageList.tsx` (an
empty array stored in the map is truthy, so `getD []` is exact). -/
def lookupGroup (groups : List (Str × List DetectedPackage)) (label : Str) :
    List DetectedPackage :=
  (lookupStr groups label).getD []

/-- `handleToggleAll` from `src/components/PackageList.tsx`: set `selected`
of every package of one displayed category to a target value; return the
collection unchanged when the category is empty or no entry needs the
update. -/
def handleToggleAll (packages : List DetectedPackage) (category : Str)
    (selected : Bool) : List DetectedPackage :=
  let catPkgs := lookupGroup (groupByCategory packages) category
  if catPkgs = [] then packages
  else
    let names := catPkgs.map DetectedPackage.packageName
    if catPkgs.any (fun p => p.selected ≠ selected) then
      packages.map (fun p =>
        if p.packageName ∈ names ∧ p.selected ≠ selected then
          { p with selected := selected }
        else p)
    else packages

/-- `handleTogglePackage` from `src/components/PackageList.tsx`: flip the
`selected` flag of the named package. -/
def handleTogglePackage (packages : List DetectedPackage) (name : Str) :
    List DetectedPackage :=
  packages.map (fun p =>
    if p.packageName = name then { p with selected := ¬p.selected } else p)

/-- The application state touched by `handleDetectBloatware` in
`src/App.tsx` (the transient `isProcessing` flag and scrolling are UI
concerns outside the model). -/
structure AppState where
  packageInput : Str
  detectedPackages : List DetectedPackage
  error : Option Str
  currentStep : Nat
deriving DecidableEq

/-- `handleDetectBloatware` from `src/App.tsx`: clear the error, reject a
blank submission, parse, reject an empty parse, otherwise classify and
replace the collection. -/
def handleDetectBloatware (getMeta : Str → Option MetaEntry)
    (bloatwareData : DeviceData) (s : AppState) : AppState :=
  let s := { s with error := none }
  if jsTrim s.packageInput = [] then
    { s with error := some (str "Please paste your package list") }
  else
    let installedPackages := parsePackageList s.packageInput
    if installedPackages.length = 0 then
      { s with error := some (str "No valid packages found in the input") }
    else
      let detected := detectBloatware getMeta installedPackages bloatwareData
      { s with detectedPackages := detected, currentStep := 2 }

/-! ### Specification-side definitions

These definitions restate parts of the specification in order to compare
the code against them; they are not translations of the source. -/

/-- Spec §4.1, per line: trim; drop if empty; strip one leading `package:`;
drop if empty. -/
def normalizeLine (line : Str) : Option Str :=
  if jsTrim line = [] then none
  else if stripLine (jsTrim line) = [] then none
  else some (stripLine (jsTrim line))

/-- Joining the normalizer output back into raw text with newlines
(spec §8, idempotence property). -/
def joinLines (ls : List Str) : Str :=
  List.intercalate [Char.ofNat 10] ls

/-- Spec §3 invariant: first occurrence of each identifier wins; carries the
set of identifiers already seen. -/
def firstOccurGo : List Str → List Str → List Str
  | [], _ => []
  | x :: xs, seen =>
    if x ∈ seen then firstOccurGo xs seen
    else x :: firstOccurGo xs (x :: seen)

/-- Spec §3 invariant: the distinct identifiers of the input, in first-seen
order. -/
def firstOccurrences (l : List Str) : List Str := firstOccurGo l []

/-- The closed set of classifier categories (spec §3). -/
def knownCategories : List Str :=
  [str "brand", str "chipset", str "generic", str "suspicious", str "system"]

/-- The priorities `categoryPriority` can produce. -/
def priorityKeys : List Nat := [0, 1, 2, 3, 4, 999]

/-- Collapse an empty optional string to an absent one (both are falsy in
JavaScript). -/
def normOptStr : Option Str → Option Str
  | some s => if s = [] then none else some s
  | none => none

/-- Normalise the `appName`/`description` fields of a metadata entry. -/
def normMetaEntry (e : MetaEntry) : MetaEntry :=
  { e with appName := normOptStr e.appName, description := normOptStr e.description }

/-- Normalise a metadata lookup table pointwise. -/
def normGetMeta (getMeta : Str → Option MetaEntry) : Str → Option MetaEntry :=
  fun k => (getMeta k).map normMetaEntry

/-- Normalise the optional fields of one bloatware database entry. -/
def normPackageData : PackageData → PackageData
  | .id s => .id s
  | .info i =>
    .info { i with appName := normOptStr i.appName
                   description := normOptStr i.description }

/-- Normalise the optional name/description fields of the database. -/
def normDeviceData (dd : DeviceData) : DeviceData :=
  { dd with bloatwarePackages := dd.bloatwarePackages.map normPackageData }

/-! ### Helper lemmas -/

theorem commandsOf_foldl (l : List DetectedPackage) (acc : List Str) :
    l.foldl commandsStep acc =
      acc ++ (l.filter (fun p => p.selected)).flatMap commandTriple := by
  induction l generalizing acc with
  | nil => simp
  | cons p rest ih =>
    by_cases hp : p.selected <;>
      simp [commandsStep, hp, ih, List.append_assoc]

theorem length_flatMap_commandTriple (l : List DetectedPackage) :
    (l.flatMap commandTriple).length = 3 * l.length := by
  induction l with
  | nil => simp
  | cons p rest ih =>
    simp [commandTriple, ih]
    omega

/-- C2: the synthesizer emits, for each selected package in input order,
exactly the disable / clear / uninstall commands, and its output length is
three times the number of selected packages. -/
theorem c2_synthesizer_commands (detectedPackages : List DetectedPackage) :
    commandsOf detectedPackages =
      (detectedPackages.filter (fun p => p.selected)).flatMap commandTriple ∧
    (commandsOf detectedPackages).length =
      3 * (detectedPackages.filter (fun p => p.selected)).length := by
  have h := commandsOf_foldl detectedPackages []
  simp only [List.nil_append] at h
  refine ⟨h, ?_⟩
  rw [commandsOf, h, length_flatMap_commandTriple]

/-- C5: prefix classification is case-insensitive starts-with matching on
the lowercased identifier; a brand-list match yields `brand` regardless of
the chipset list, a chipset-list match (with no brand match) yields
`chipset`, and no match yields `generic`. -/
theorem c5_prefix_classification (packageName : Str) :
    ((∃ p ∈ BRAND_PREFIXES, p.isPrefixOf (jsToLower packageName) = true) →
      categorisePackage packageName = str "brand") ∧
    ((∀ p ∈ BRAND_PREFIXES, ¬p.isPrefixOf (jsToLower packageName) = true) →
      (∃ p ∈ CHIPSET_PREFIXES, p.isPrefixOf (jsToLower packageName) = true) →
      categorisePackage packageName = str "chipset") ∧
    ((∀ p ∈ BRAND_PREFIXES ++ CHIPSET_PREFIXES,
        ¬p.isPrefixOf (jsToLower packageName) = true) →
      categorisePackage packageName = str "generic") := by
  refine ⟨fun h => ?_, fun hb hc => ?_, fun h => ?_⟩
  · have : BRAND_PREFIXES.any (fun p => p.isPrefixOf (jsToLower packageName)) = true := by
      rw [List.any_eq_true]
      obtain ⟨p, hp, hpre⟩ := h
      exact ⟨p, hp, hpre⟩
    simp [categorisePackage, this]
  · have h1 : BRAND_PREFIXES.any (fun p => p.isPrefixOf (jsToLower packageName)) = false := by
      rw [List.any_eq_false]
      intro p hp
      simpa using hb p hp
    have h2 : CHIPSET_PREFIXES.any (fun p => p.isPrefixOf (jsToLower packageName)) = true := by
      rw [List.any_eq_true]
      obtain ⟨p, hp, hpre⟩ := hc
      exact ⟨p, hp, hpre⟩
    simp [categorisePackage, h1, h2]
  · have h1 : BRAND_PREFIXES.any (fun p => p.isPrefixOf (jsToLower packageName)) = false := by
      rw [List.any_eq_false]
      intro p hp
      simpa using h p (List.mem_append_left _ hp)
    have h2 : CHIPSET_PREFIXES.any (fun p => p.isPrefixOf (jsToLower packageName)) = false := by
      rw [List.any_eq_false]
      intro p hp
      simpa using h p (List.mem_append_right _ hp)
    simp [categorisePackage, h1, h2]

/-- Closed instance of C5: a Samsung package is `brand`, a Qualcomm package
is `chipset`, an unprefixed package is `generic`. -/
theorem c5_prefix_classification_witness :
    categorisePackage (str "com.samsung.android.app.spage") = str "brand" ∧
    categorisePackage (str "com.qualcomm.qti.cne") = str "chipset" ∧
    categorisePackage (str "net.example.widget") = str "generic" :=
  ⟨(c5_prefix_classification (str "com.samsung.android.app.spage")).1
      ⟨str "com.samsung.", by decide, by decide⟩,
   (c5_prefix_classification (str "com.qualcomm.qti.cne")).2.1
      (by decide) ⟨str "com.qualcomm.", by decide, by decide⟩,
   (c5_prefix_classification (str "net.example.widget")).2.2 (by decide)⟩

theorem detectGo_eq_map (getMeta : Str → Option MetaEntry) (dd : DeviceData)
    (l seen : List Str) :
    detectGo getMeta dd l seen = (firstOccurGo l seen).map (classifyOne getMeta dd) := by
  induction l generalizing seen with
  | nil => simp [detectGo, firstOccurGo]
  | cons x xs ih =>
    by_cases hx : x ∈ seen <;> simp [detectGo, firstOccurGo, hx, ih]

theorem mem_firstOccurGo (x : Str) (l seen : List Str) :
    x ∈ firstOccurGo l seen ↔ x ∈ l ∧ x ∉ seen := by
  induction l generalizing seen with
  | nil => simp [firstOccurGo]
  | cons y ys ih =>
    by_cases hy : y ∈ seen
    · rw [firstOccurGo, if_pos hy, ih]
      constructor
      · rintro ⟨hmem, hns⟩
        exact ⟨List.mem_cons_of_mem _ hmem, hns⟩
      · rintro ⟨hmem, hns⟩
        rcases List.mem_cons.mp hmem with rfl | hmem
        · exact absurd hy hns
        · exact ⟨hmem, hns⟩
    · rw [firstOccurGo, if_neg hy]
      constructor
      · intro hmem
        rcases List.mem_cons.mp hmem with rfl | hmem
        · exact ⟨List.mem_cons_self _ _, hy⟩
        · rw [ih] at hmem
          obtain ⟨h1, h2⟩ := hmem
          simp only [List.mem_cons, not_or] at h2
          exact ⟨List.mem_cons_of_mem _ h1, h2.2⟩
      · rintro ⟨hmem, hns⟩
        rcases List.mem_cons.mp hmem with rfl | hmem
        · exact List.mem_cons_self _ _
        · by_cases hxy : x = y
          · subst hxy
            exact List.mem_cons_self _ _
          · refine List.mem_cons_of_mem _ ?_
            rw [ih]
            exact ⟨hmem, by simp [hxy, hns]⟩

theorem nodup_firstOccurGo (l seen : List Str) : (firstOccurGo l seen).Nodup := by
  induction l generalizing seen with
  | nil => simp [firstOccurGo]
  | cons x xs ih =>
    by_cases hx : x ∈ seen
    · rw [firstOccurGo, if_pos hx]
      exact ih seen
    · rw [firstOccurGo, if_neg hx]
      refine List.nodup_cons.mpr ⟨?_, ih (x :: seen)⟩
      rw [mem_firstOccurGo]
      rintro ⟨-, hns⟩
      exact hns (List.mem_cons_self _ _)

theorem firstOccurGo_of_nodup (l : List Str) (seen : List Str)
    (hnd : l.Nodup) (hdisj : ∀ x ∈ l, x ∉ seen) : firstOccurGo l seen = l := by
  induction l generalizing seen with
  | nil => rfl
  | cons x xs ih =>
    rw [firstOccurGo, if_neg (hdisj x (List.mem_cons_self _ _))]
    have hnd' := List.nodup_cons.mp hnd
    congr 1
    refine ih _ hnd'.2 ?_
    intro y hy
    simp only [List.mem_cons, not_or]
    exact ⟨fun h => hnd'.1 (h ▸ hy), hdisj y (List.mem_cons_of_mem _ hy)⟩

theorem classifyOne_packageName (getMeta : Str → Option MetaEntry)
    (dd : DeviceData) (n : Str) : (classifyOne getMeta dd n).packageName = n := by
  by_cases h1 : n ∈ dd.recognisedPackages <;>
    by_cases h2 : n ∈ bloatwareIds dd.bloatwarePackages <;>
      simp [classifyOne, h1, h2]

/-- C1: first-match-wins classification — a recognised identifier is
`system` and unselected; a non-recognised bloatware identifier is selected
with its prefix-classified category; anything else is `suspicious` and
unselected.  A recognised identifier resolves to `system` even when it is
also in the bloatware set. -/
theorem c1_classifier_first_match (getMeta : Str → Option MetaEntry)
    (installedPackages : List Str) (deviceData : DeviceData)
    (p : DetectedPackage)
    (hp : p ∈ detectBloatware getMeta installedPackages deviceData) :
    (p.packageName ∈ deviceData.recognisedPackages →
      p.category = str "system" ∧ p.selected = false) ∧
    (p.packageName ∉ deviceData.recognisedPackages →
      p.packageName ∈ bloatwareIds deviceData.bloatwarePackages →
      p.selected = true ∧ p.category = categorisePackage p.packageName) ∧
    (p.packageName ∉ deviceData.recognisedPackages →
      p.packageName ∉ bloatwareIds deviceData.bloatwarePackages →
      p.category = str "suspicious" ∧ p.selected = false) := by
  rw [detectBloatware, detectGo_eq_map] at hp
  obtain ⟨name, -, rfl⟩ := List.mem_map.mp hp
  rw [classifyOne_packageName]
  refine ⟨fun h => ?_, fun h1 h2 => ?_, fun h1 h2 => ?_⟩
  · simp [classifyOne, h]
  · simp [classifyOne, h1, h2]
  · simp [classifyOne, h1, h2]

/-- Closed instance of C1: with a database where `com.both` is recognised
and bloatware, `com.bloat` only bloatware, and `com.other` in neither, the
three branches produce `system`/unselected, selected with prefix category,
and `suspicious`/unselected respectively. -/
theorem c1_classifier_first_match_witness :
    ((detectBloatware (fun _ => none)
        [str "com.both", str "com.bloat", str "com.other"]
        ⟨[str "com.both"], [.id (str "com.both"), .id (str "com.bloat")]⟩).get
      ⟨0, by decide⟩).category = str "system" ∧
    ((detectBloatware (fun _ => none)
        [str "com.both", str "com.bloat", str "com.other"]
        ⟨[str "com.both"], [.id (str "com.both"), .id (str "com.bloat")]⟩).get
      ⟨1, by decide⟩).selected = true ∧
    ((detectBloatware (fun _ => none)
        [str "com.both", str "com.bloat", str "com.other"]
        ⟨[str "com.both"], [.id (str "com.both"), .id (str "com.bloat")]⟩).get
      ⟨2, by decide⟩).category = str "suspicious" := by
  refine ⟨?_, ?_, ?_⟩
  · exact ((c1_classifier_first_match (fun _ => none) _ _ _
      (List.get_mem _ _ (by decide))).1 (by decide)).1
  · exact ((c1_classifier_first_match (fun _ => none) _ _ _
      (List.get_mem _ _ (by decide))).2.1 (by decide) (by decide)).1
  · exact ((c1_classifier_first_match (fun _ => none) _ _ _
      (List.get_mem _ _ (by decide))).2.2 (by decide) (by decide)).1

/-- C4: one output entry per distinct identifier in first-seen order — the
output names are exactly the first occurrences of the input, without
duplicates, and re-running on the de-duplicated input yields the same
output. -/
theorem c4_dedup_first_occurrence (getMeta : Str → Option MetaEntry)
    (installedPackages : List Str) (deviceData : DeviceData) :
    (detectBloatware getMeta installedPackages deviceData).map
        DetectedPackage.packageName = firstOccurrences installedPackages ∧
    ((detectBloatware getMeta installedPackages deviceData).map
        DetectedPackage.packageName).Nodup ∧
    (∀ x, x ∈ firstOccurrences installedPackages ↔ x ∈ installedPackages) ∧
    detectBloatware getMeta installedPackages deviceData =
      detectBloatware getMeta (firstOccurrences installedPackages) deviceData := by
  have hmap : (detectBloatware getMeta installedPackages deviceData).map
      DetectedPackage.packageName = firstOccurrences installedPackages := by
    rw [detectBloatware, detectGo_eq_map, List.map_map, firstOccurrences]
    have hcomp : (DetectedPackage.packageName ∘ classifyOne getMeta deviceData) = id := by
      funext x
      exact classifyOne_packageName getMeta deviceData x
    rw [hcomp, List.map_id]
  refine ⟨hmap, ?_, ?_, ?_⟩
  · rw [hmap]
    exact nodup_firstOccurGo _ _
  · intro x
    rw [firstOccurrences, mem_firstOccurGo]
    simp
  · rw [detectBloatware, detectBloatware, detectGo_eq_map, detectGo_eq_map]
    congr 1
    rw [firstOccurGo_of_nodup (firstOccurrences installedPackages) []
      (nodup_firstOccurGo _ _) (by simp)]
    rfl

/-- Closed instance of C4: a duplicated input line yields a single entry. -/
theorem c4_dedup_first_occurrence_witness :
    (detectBloatware (fun _ => none) [str "a.b.c", str "a.b.c"]
        ⟨[], []⟩).map DetectedPackage.packageName = [str "a.b.c"] := by
  have h := (c4_dedup_first_occurrence (fun _ => none)
    [str "a.b.c", str "a.b.c"] ⟨[], []⟩).1
  rw [h]
  decide

/-- C9: detection is all-or-nothing — a blank submission or an input the
normalizer reduces to nothing sets a user-visible error and leaves the
detected collection (and step) unchanged; otherwise the full classified
collection replaces it with no error. -/
theorem c9_detection_all_or_nothing (getMeta : Str → Option MetaEntry)
    (bloatwareData : DeviceData) (s : AppState) :
    (jsTrim s.packageInput = [] →
      handleDetectBloatware getMeta bloatwareData s =
        { s with error := some (str "Please paste your package list") }) ∧
    (jsTrim s.packageInput ≠ [] → parsePackageList s.packageInput = [] →
      handleDetectBloatware getMeta bloatwareData s =
        { s with error := some (str "No valid packages found in the input") }) ∧
    (jsTrim s.packageInput ≠ [] → parsePackageList s.packageInput ≠ [] →
      handleDetectBloatware getMeta bloatwareData s =
        { s with error := none
                 detectedPackages :=
                   detectBloatware getMeta (parsePackageList s.packageInput) bloatwareData
                 currentStep := 2 }) := by
  refine ⟨fun h => ?_, fun h1 h2 => ?_, fun h1 h2 => ?_⟩
  · simp [handleDetectBloatware, h]
  · have hlen : (parsePackageList s.packageInput).length = 0 := by
      rw [h2]
      rfl
    simp [handleDetectBloatware, h1, hlen]
  · have hlen : (parsePackageList s.packageInput).length ≠ 0 := by
      simpa [List.length_eq_zero] using h2
    simp [handleDetectBloatware, h1, hlen]

/-- Closed instance of C9: a whitespace-only input, an input of only
`package:` lines that normalize to nothing, and a successful input. -/
theorem c9_detection_all_or_nothing_witness :
    handleDetectBloatware (fun _ => none) ⟨[], []⟩
        ⟨str "  ", [], none, 1⟩ =
      { packageInput := str "  ", detectedPackages := [],
        error := some (str "Please paste your package list"), currentStep := 1 } ∧
    handleDetectBloatware (fun _ => none) ⟨[], []⟩
        ⟨str "package:", [], none, 1⟩ =
      { packageInput := str "package:", detectedPackages := [],
        error := some (str "No valid packages found in the input"), currentStep := 1 } ∧
    handleDetectBloatware (fun _ => none) ⟨[], []⟩
        ⟨str "com.a", [], none, 1⟩ =
      { packageInput := str "com.a",
        detectedPackages :=
          detectBloatware (fun _ => none) (parsePackageList (str "com.a")) ⟨[], []⟩,
        error := none, currentStep := 2 } :=
  ⟨(c9_detection_all_or_nothing (fun _ => none) ⟨[], []⟩ _).1 (by decide),
   (c9_detection_all_or_nothing (fun _ => none) ⟨[], []⟩ _).2.1 (by decide) (by decide),
   (c9_detection_all_or_nothing (fun _ => none) ⟨[], []⟩ _).2.2 (by decide) (by decide)⟩

theorem jsOrS_normOptStr (x : Option Str) (y : Str) :
    jsOrS (normOptStr x) y = jsOrS x y := by
  match x with
  | none => rfl
  | some s =>
    by_cases hs : s = [] <;> simp [normOptStr, jsOrS, hs]

theorem normGetMeta_appName (getMeta : Str → Option MetaEntry) (n : Str) :
    (normGetMeta getMeta n).bind MetaEntry.appName =
      normOptStr ((getMeta n).bind MetaEntry.appName) := by
  cases h : getMeta n <;> simp [normGetMeta, h, normMetaEntry, normOptStr]

theorem normGetMeta_description (getMeta : Str → Option MetaEntry) (n : Str) :
    (normGetMeta getMeta n).bind MetaEntry.description =
      normOptStr ((getMeta n).bind MetaEntry.description) := by
  cases h : getMeta n <;> simp [normGetMeta, h, normMetaEntry, normOptStr]

theorem normGetMeta_passthrough (getMeta : Str → Option MetaEntry) (n : Str) :
    (normGetMeta getMeta n).bind MetaEntry.safetyRating =
        (getMeta n).bind MetaEntry.safetyRating ∧
    (normGetMeta getMeta n).bind MetaEntry.removalImpact =
        (getMeta n).bind MetaEntry.removalImpact ∧
    (normGetMeta getMeta n).bind MetaEntry.category =
        (getMeta n).bind MetaEntry.category := by
  cases h : getMeta n <;> simp [normGetMeta, h, normMetaEntry]

theorem packageId_normPackageData (item : PackageData) :
    packageId (normPackageData item) = packageId item := by
  cases item <;> rfl

theorem bloatwareIds_norm (items : List PackageData) :
    bloatwareIds (items.map normPackageData) = bloatwareIds items := by
  rw [bloatwareIds, bloatwareIds, List.map_map]
  exact List.map_congr_left (fun item _ => packageId_normPackageData item)

theorem bloatwareMetadataList_norm_go (items : List PackageData)
    (acc : List (Str × PackageMetadata)) :
    (items.map normPackageData).foldl
        (fun acc item =>
          match item with
          | .id _ => acc
          | .info i =>
              (i.appID, { appName := jsOrS i.appName i.appID
                          description := jsOrS i.description [] }) :: acc)
        acc =
      items.foldl
        (fun acc item =>
          match item with
          | .id _ => acc
          | .info i =>
              (i.appID, { appName := jsOrS i.appName i.appID
                          description := jsOrS i.description [] }) :: acc)
        acc := by
  induction items generalizing acc with
  | nil => rfl
  | cons item rest ih =>
    cases item with
    | id s => simpa [normPackageData] using ih acc
    | info i =>
      simp only [List.map_cons, List.foldl_cons, normPackageData]
      rw [jsOrS_normOptStr, jsOrS_normOptStr]
      exact ih _

theorem bloatwareMetadataList_norm (items : List PackageData) :
    bloatwareMetadataList (items.map normPackageData) = bloatwareMetadataList items :=
  bloatwareMetadataList_norm_go items []

theorem classifyOne_norm (getMeta : Str → Option MetaEntry) (dd : DeviceData)
    (n : Str) :
    classifyOne (normGetMeta getMeta) (normDeviceData dd) n = classifyOne getMeta dd n := by
  have hrec : (normDeviceData dd).recognisedPackages = dd.recognisedPackages := rfl
  have hids : bloatwareIds (normDeviceData dd).bloatwarePackages =
      bloatwareIds dd.bloatwarePackages := bloatwareIds_norm dd.bloatwarePackages
  have hmeta : bloatwareMetadataList (normDeviceData dd).bloatwarePackages =
      bloatwareMetadataList dd.bloatwarePackages := bloatwareMetadataList_norm dd.bloatwarePackages
  obtain ⟨hsr, hri, hcat⟩ := normGetMeta_passthrough getMeta n
  by_cases h1 : n ∈ dd.recognisedPackages
  · simp only [classifyOne, hrec, h1, if_pos]
    rw [normGetMeta_appName, normGetMeta_description, jsOrS_normOptStr,
      jsOrS_normOptStr, hsr, hri, hcat]
  · by_cases h2 : n ∈ bloatwareIds dd.bloatwarePackages
    · simp only [classifyOne, hrec, hids, hmeta, h1, h2, if_pos, if_neg,
        not_false_iff]
      rw [normGetMeta_appName, normGetMeta_description, jsOrS_normOptStr,
        jsOrS_normOptStr, hsr, hri, hcat]
    · simp only [classifyOne, hrec, hids, h1, h2, if_neg, not_false_iff]
      rw [normGetMeta_appName, normGetMeta_description, jsOrS_normOptStr,
        jsOrS_normOptStr, hsr, hri, hcat]

/-- C10: in the appName/description precedence chains an empty-string source
behaves exactly like an absent one — collapsing every empty-string
`appName`/`description` in the metadata table and in the bloatware database
to `none` leaves the classifier output unchanged. -/
theorem c10_empty_string_falls_through (getMeta : Str → Option MetaEntry)
    (installedPackages : List Str) (deviceData : DeviceData) :
    detectBloatware (normGetMeta getMeta) installedPackages (normDeviceData deviceData) =
      detectBloatware getMeta installedPackages deviceData := by
  rw [detectBloatware, detectBloatware, detectGo_eq_map, detectGo_eq_map]
  exact List.map_congr_left
    (fun n _ => classifyOne_norm getMeta deviceData n)

theorem forall₂_map_of_forall {α : Type} (R : α → α → Prop) (f : α → α)
    (l : List α) (h : ∀ a ∈ l, R a (f a)) : List.Forall₂ R l (l.map f) := by
  induction l with
  | nil => simp
  | cons x xs ih =>
    simp only [List.map_cons, List.forall₂_cons]
    exact ⟨h x (List.mem_cons_self _ _),
      ih (fun a ha => h a (List.mem_cons_of_mem _ ha))⟩

theorem forall₂_refl_of_forall {α : Type} (R : α → α → Prop)
    (l : List α) (h : ∀ a ∈ l, R a a) : List.Forall₂ R l l := by
  induction l with
  | nil => simp
  | cons x xs ih =>
    simp only [List.forall₂_cons]
    exact ⟨h x (List.mem_cons_self _ _),
      ih (fun a ha => h a (List.mem_cons_of_mem _ ha))⟩

/-- C7: toggling is frame-respecting — category toggling leaves every entry
whose identifier is outside the targeted set unchanged and changes targeted
entries only by setting `selected` to the target value; it is a no-op when
every targeted entry already carries the target value; single-package
toggling changes at most the named entry, and only its `selected` flag. -/
theorem c7_toggle_frame (packages : List DetectedPackage)
    (category name : Str) (selected : Bool) :
    List.Forall₂ (fun p q => q = p ∨
        (p.packageName ∈ (lookupGroup (groupByCategory packages) category).map
            DetectedPackage.packageName ∧
          q = { p with selected := selected }))
      packages (handleToggleAll packages category selected) ∧
    ((∀ p ∈ lookupGroup (groupByCategory packages) category, p.selected = selected) →
      handleToggleAll packages category selected = packages) ∧
    List.Forall₂ (fun p q => q = p ∨
        (p.packageName = name ∧ q = { p with selected := ¬p.selected }))
      packages (handleTogglePackage packages name) := by
  refine ⟨?_, ?_, ?_⟩
  · rw [handleToggleAll]
    by_cases hempty : lookupGroup (groupByCategory packages) category = []
    · simp only [hempty, if_pos]
      exact forall₂_refl_of_forall _ _ (fun a _ => Or.inl rfl)
    · simp only [hempty, if_neg, not_false_iff]
      by_cases hneed : (lookupGroup (groupByCategory packages) category).any
          (fun p => p.selected ≠ selected)
      · simp only [hneed, if_pos]
        refine forall₂_map_of_forall _ _ _ (fun p _ => ?_)
        by_cases hc : p.packageName ∈ (lookupGroup (groupByCategory packages)
            category).map DetectedPackage.packageName ∧ p.selected ≠ selected
        · exact Or.inr ⟨hc.1, by rw [if_pos hc]⟩
        · exact Or.inl (by rw [if_neg hc])
      · simp only [hneed]
        simp only [if_neg, Bool.false_eq_true, not_false_iff]
        exact forall₂_refl_of_forall _ _ (fun a _ => Or.inl rfl)
  · intro h
    rw [handleToggleAll]
    by_cases hempty : lookupGroup (groupByCategory packages) category = []
    · simp [hempty]
    · by_cases hneed : (lookupGroup (groupByCategory packages) category).any
          (fun p => p.selected ≠ selected)
      · exfalso
        rw [List.any_eq_true] at hneed
        obtain ⟨p, hp, hps⟩ := hneed
        simp only [decide_eq_true_eq] at hps
        exact hps (h p hp)
      · simp only [hempty, if_neg, not_false_iff, hneed]
        simp only [Bool.false_eq_true, if_false]
  · rw [handleTogglePackage]
    refine forall₂_map_of_forall _ _ _ (fun p _ => ?_)
    by_cases hn : p.packageName = name
    · exact Or.inr ⟨hn, by rw [if_pos hn]⟩
    · exact Or.inl (by rw [if_neg hn])

theorem groupByCategory_singleton (p : DetectedPackage) :
    groupByCategory [p] = [(categoryLabel p.category, [p])] := by
  simp [groupByCategory, sortedByPriority, List.mergeSort_singleton, groupsInsert]

/-- Closed instance of C7: toggling a brand category whose single entry
already has the target value is a no-op. -/
theorem c7_toggle_frame_witness :
    handleToggleAll
        [⟨str "com.x", str "com.x", [], none, none, none, str "brand", true⟩]
        (str "Brand-Specific Bloatware") true =
      [⟨str "com.x", str "com.x", [], none, none, none, str "brand", true⟩] :=
  (c7_toggle_frame
      [⟨str "com.x", str "com.x", [], none, none, none, str "brand", true⟩]
      (str "Brand-Specific Bloatware") (str "com.x") true).2.1
    (by rw [groupByCategory_singleton]; decide)

theorem dropWhile_idem {α : Type} (p : α → Bool) (l : List α) :
    (l.dropWhile p).dropWhile p = l.dropWhile p := by
  induction l with
  | nil => rfl
  | cons a l ih =>
    by_cases hp : p a
    · rw [List.dropWhile_cons, if_pos hp, ih]
    · rw [List.dropWhile_cons, if_neg hp, List.dropWhile_cons, if_neg hp]

theorem head_not_of_dropWhile_eq_self {α : Type} (p : α → Bool) (c : α)
    (r : List α) (h : (c :: r).dropWhile p = c :: r) : p c = false := by
  by_cases hp : p c
  · exfalso
    rw [List.dropWhile_cons, if_pos hp] at h
    have hlen : (r.dropWhile p).length ≤ r.length :=
      (List.dropWhile_sublist _).length_le
    rw [h] at hlen
    simp at hlen
  · simpa using hp

/-- No trailing whitespace: the reverse has no leading whitespace. -/
def noTrailWS (s : Str) : Prop :=
  s.reverse.dropWhile Char.isWhitespace = s.reverse

theorem noTrailWS_jsTrim (l : Str) : noTrailWS (jsTrim l) := by
  rw [noTrailWS, jsTrim, List.reverse_reverse]
  exact dropWhile_idem _ _

theorem noTrailWS_drop (s : Str) (n : Nat) (h : noTrailWS s)
    (hne : s.drop n ≠ []) : noTrailWS (s.drop n) := by
  rw [noTrailWS]
  obtain ⟨c, r, hcr⟩ := List.exists_cons_of_ne_nil (by simpa using hne :
    (s.drop n).reverse ≠ [])
  rw [hcr]
  have hsplit : s.reverse = c :: (r ++ (s.take n).reverse) := by
    conv_lhs => rw [← List.take_append_drop n s]
    rw [List.reverse_append, hcr]
    simp
  rw [noTrailWS, hsplit] at h
  have hc := head_not_of_dropWhile_eq_self _ _ _ h
  rw [List.dropWhile_cons, if_neg (by simp [hc])]

theorem pipeline_eq_filterMap (lines : List Str) :
    (((lines.map jsTrim).filter (fun l => l ≠ [])).map stripLine).filter
      (fun l => l ≠ []) = lines.filterMap normalizeLine := by
  induction lines with
  | nil => rfl
  | cons line rest ih =>
    rw [List.map_cons, List.filter_cons]
    by_cases ht : jsTrim line = []
    · rw [if_neg (by simp [ht]),
        List.filterMap_cons_none (by simp [normalizeLine, ht]), ih]
    · rw [if_pos (by simp [ht]), List.map_cons, List.filter_cons]
      by_cases hr : stripLine (jsTrim line) = []
      · rw [if_neg (by simp [hr]),
          List.filterMap_cons_none (by simp [normalizeLine, ht, hr]), ih]
      · rw [if_pos (by simp [hr]),
          List.filterMap_cons_some
            (show normalizeLine line = some (stripLine (jsTrim line)) by
              simp [normalizeLine, ht, hr]), ih]

theorem parsePackageList_eq_filterMap (input : Str) :
    parsePackageList input =
      ((jsTrim input).splitOn (Char.ofNat 10)).filterMap normalizeLine := by
  rw [parsePackageList, pipeline_eq_filterMap]

theorem normalizeLine_some (line s : Str) (h : normalizeLine line = some s) :
    s ≠ [] ∧ jsTrim line ≠ [] ∧ s = stripLine (jsTrim line) := by
  by_cases ht : jsTrim line = []
  · rw [normalizeLine, if_pos ht] at h
    exact absurd h (by simp)
  · by_cases hr : stripLine (jsTrim line) = []
    · rw [normalizeLine, if_neg ht, if_pos hr] at h
      exact absurd h (by simp)
    · rw [normalizeLine, if_neg ht, if_neg hr] at h
      obtain rfl := (Option.some_inj.mp h).symm
      exact ⟨hr, ht, rfl⟩

/-- C3 (counterexample): stripping `package:` can expose leading whitespace
or a second `package:` prefix, so the output is not always fully trimmed
and prefix-free. -/
theorem c3_normalizer_output_counterexample :
    parsePackageList (str "package: a\npackage:package:b") =
      [str " a", str "package:b"] ∧
    (str " a").dropWhile Char.isWhitespace ≠ str " a" ∧
    (str "package:").isPrefixOf (str "package:b") = true := by
  decide

/-- C3 (amended): every output element is a non-empty string with no
trailing whitespace, and the output is the in-order per-line normalization
(trim, drop if empty, strip one `package:` prefix, drop if empty) of the
input lines — so elements may retain leading whitespace or a further
`package:` prefix only when the strip uncovered one. -/
theorem c3_normalizer_output (input : Str) :
    (∀ s ∈ parsePackageList input, s ≠ [] ∧ noTrailWS s) ∧
    parsePackageList input =
      ((jsTrim input).splitOn (Char.ofNat 10)).filterMap normalizeLine := by
  refine ⟨fun s hs => ?_, parsePackageList_eq_filterMap input⟩
  rw [parsePackageList_eq_filterMap] at hs
  obtain ⟨line, -, hline⟩ := List.mem_filterMap.mp hs
  obtain ⟨hne, hterm, hform⟩ := normalizeLine_some line s hline
  refine ⟨hne, ?_⟩
  rw [hform, stripLine]
  by_cases hpre : (str "package:").isPrefixOf (jsTrim line)
  · rw [if_pos hpre]
    exact noTrailWS_drop _ _ (noTrailWS_jsTrim line)
      (by rw [hform, stripLine, if_pos hpre] at hne; exact hne)
  · rw [if_neg hpre]
    exact noTrailWS_jsTrim line

/-- Closed instance of C3 (amended): concrete non-emptiness and the
per-line filterMap form. -/
theorem c3_normalizer_output_witness :
    (str "a" ≠ [] ∧ noTrailWS (str "a")) ∧
    parsePackageList (str "package:a\n b ") =
      ((jsTrim (str "package:a\n b ")).splitOn (Char.ofNat 10)).filterMap
        normalizeLine :=
  ⟨(c3_normalizer_output (str "package:a\n b ")).1 (str "a") (by decide),
   (c3_normalizer_output (str "package:a\n b ")).2⟩

theorem splitOnP_no_sep {α : Type} (p : α → Bool) (l : List α) :
    ∀ s ∈ l.splitOnP p, ∀ a ∈ s, p a = false := by
  induction l with
  | nil =>
    intro s hs a ha
    rw [List.splitOnP_nil] at hs
    simp only [List.mem_singleton] at hs
    subst hs
    simp at ha
  | cons x xs ih =>
    intro s hs a ha
    rw [List.splitOnP_cons] at hs
    by_cases hp : p x
    · rw [if_pos hp] at hs
      rcases List.mem_cons.mp hs with rfl | hs
      · simp at ha
      · exact ih s hs a ha
    · rw [if_neg hp] at hs
      obtain ⟨r, rs, hrr⟩ := List.exists_cons_of_ne_nil (List.splitOnP_ne_nil p xs)
      rw [hrr, List.modifyHead] at hs
      rcases List.mem_cons.mp hs with rfl | hs
      · rcases List.mem_cons.mp ha with rfl | ha
        · simpa using hp
        · exact ih r (hrr ▸ List.mem_cons_self _ _) a ha
      · exact ih s (hrr ▸ List.mem_cons_of_mem _ hs) a ha

theorem splitOn_no_sep (x : Char) (l s : Str) (hs : s ∈ l.splitOn x) : x ∉ s := by
  intro hx
  have hrfl : l.splitOn x = l.splitOnP (· == x) := rfl
  rw [hrfl] at hs
  have hfalse := splitOnP_no_sep (· == x) l s hs x hx
  simp at hfalse

theorem mem_of_mem_jsTrim (a : Char) (l : Str) (h : a ∈ jsTrim l) : a ∈ l := by
  rw [jsTrim, List.mem_reverse] at h
  have h2 := (List.dropWhile_sublist _).subset h
  rw [List.mem_reverse] at h2
  exact (List.dropWhile_sublist _).subset h2

theorem mem_of_mem_stripLine (a : Char) (l : Str) (h : a ∈ stripLine l) : a ∈ l := by
  rw [stripLine] at h
  by_cases hp : (str "package:").isPrefixOf l
  · rw [if_pos hp] at h
    exact (List.drop_sublist _ _).subset h
  · rwa [if_neg hp] at h

theorem intercalate_cons_cons (sep x y : Str) (ys : List Str) :
    List.intercalate sep (x :: y :: ys) =
      x ++ (sep ++ List.intercalate sep (y :: ys)) := by
  simp [List.intercalate, List.intersperse]

theorem intercalate_one (sep x : Str) : List.intercalate sep [x] = x := by
  simp [List.intercalate]

theorem intercalate_cons_exists (sep x : Str) (xs : List Str) :
    ∃ t, List.intercalate sep (x :: xs) = x ++ t := by
  cases xs with
  | nil => exact ⟨[], by rw [intercalate_one, List.append_nil]⟩
  | cons y ys =>
    exact ⟨sep ++ List.intercalate sep (y :: ys), intercalate_cons_cons sep x y ys⟩

theorem dropWhile_append_eq_self (pp : Char → Bool) (x t : Str) (hx : x ≠ [])
    (h : x.dropWhile pp = x) : (x ++ t).dropWhile pp = x ++ t := by
  obtain ⟨c, r, rfl⟩ := List.exists_cons_of_ne_nil hx
  have hc := head_not_of_dropWhile_eq_self pp c r h
  rw [List.cons_append, List.dropWhile_cons, if_neg (by simp [hc])]

theorem noTrailWS_append (x y : Str) (hy : y ≠ []) (h : noTrailWS y) :
    noTrailWS (x ++ y) := by
  rw [noTrailWS, List.reverse_append]
  exact dropWhile_append_eq_self _ _ _ (by simpa using hy) h

theorem noTrailWS_joinLines (out : List Str)
    (h : ∀ s ∈ out, s ≠ [] ∧ noTrailWS s) (hne : out ≠ []) :
    noTrailWS (joinLines out) := by
  induction out with
  | nil => cases hne rfl
  | cons s rest ih =>
    cases rest with
    | nil =>
      rw [joinLines, intercalate_one]
      exact (h s (List.mem_cons_self _ _)).2
    | cons y ys =>
      rw [joinLines, intercalate_cons_cons]
      have hrest : noTrailWS (joinLines (y :: ys)) :=
        ih (fun t ht => h t (List.mem_cons_of_mem _ ht)) (by simp)
      have hy := h y (List.mem_cons_of_mem _ (List.mem_cons_self _ _))
      obtain ⟨t, ht⟩ := intercalate_cons_exists [Char.ofNat 10] y ys
      have hjne : joinLines (y :: ys) ≠ [] := by
        rw [joinLines, ht]
        intro hc
        exact hy.1 (List.append_eq_nil.mp hc).1
      refine noTrailWS_append _ _ (by simp) ?_
      exact noTrailWS_append _ _ hjne hrest

theorem jsTrim_joinLines (out : List Str)
    (h : ∀ s ∈ out, s ≠ [] ∧ noTrailWS s)
    (hlead : ∀ s ∈ out, s.dropWhile Char.isWhitespace = s) :
    jsTrim (joinLines out) = joinLines out := by
  cases out with
  | nil => rfl
  | cons s rest =>
    have hs := h s (List.mem_cons_self _ _)
    obtain ⟨t, ht⟩ := intercalate_cons_exists [Char.ofNat 10] s rest
    have h1 : (joinLines (s :: rest)).dropWhile Char.isWhitespace =
        joinLines (s :: rest) := by
      rw [joinLines, ht]
      exact dropWhile_append_eq_self _ _ _ hs.1 (hlead s (List.mem_cons_self _ _))
    have h2 : noTrailWS (joinLines (s :: rest)) :=
      noTrailWS_joinLines _ h (by simp)
    rw [noTrailWS] at h2
    rw [jsTrim, h1, h2, List.reverse_reverse]

theorem filterMap_eq_self_of_some {α : Type} (f : α → Option α) (l : List α)
    (h : ∀ a ∈ l, f a = some a) : l.filterMap f = l := by
  induction l with
  | nil => rfl
  | cons a as ih =>
    rw [List.filterMap_cons_some (h a (List.mem_cons_self _ _)),
      ih (fun b hb => h b (List.mem_cons_of_mem _ hb))]

theorem jsTrim_eq_self (s : Str) (hlead : s.dropWhile Char.isWhitespace = s)
    (htrail : noTrailWS s) : jsTrim s = s := by
  rw [noTrailWS] at htrail
  rw [jsTrim, hlead, htrail, List.reverse_reverse]

theorem parsePackageList_elem_props (input s : Str)
    (hs : s ∈ parsePackageList input) :
    s ≠ [] ∧ noTrailWS s ∧ Char.ofNat 10 ∉ s := by
  rw [parsePackageList_eq_filterMap] at hs
  obtain ⟨line, hline_mem, hline⟩ := List.mem_filterMap.mp hs
  obtain ⟨hne, hterm, hform⟩ := normalizeLine_some line s hline
  refine ⟨hne, ?_, ?_⟩
  · rw [hform, stripLine]
    by_cases hpre : (str "package:").isPrefixOf (jsTrim line)
    · rw [if_pos hpre]
      exact noTrailWS_drop _ _ (noTrailWS_jsTrim line)
        (by rw [hform, stripLine, if_pos hpre] at hne; exact hne)
    · rw [if_neg hpre]
      exact noTrailWS_jsTrim line
  · intro hmem
    rw [hform] at hmem
    exact splitOn_no_sep (Char.ofNat 10) (jsTrim input) line hline_mem
      (mem_of_mem_jsTrim _ _ (mem_of_mem_stripLine _ _ hmem))

/-- C6 (counterexample): re-normalizing the joined output is not always the
identity — `package: a` normalizes to ` a`, which re-normalizes to `a`. -/
theorem c6_normalizer_idempotent_counterexample :
    parsePackageList (joinLines (parsePackageList (str "package: a"))) ≠
      parsePackageList (str "package: a") ∧
    parsePackageList (str "package: a") = [str " a"] ∧
    parsePackageList (joinLines (parsePackageList (str "package: a"))) = [str "a"] := by
  decide

/-- C6 (amended): the normalizer is idempotent on every input whose output
elements carry no leading whitespace and no leading `package:` prefix (the
only artifacts a `package:`-strip can leave behind): re-running it on its
own newline-joined output returns the same sequence. -/
theorem c6_normalizer_idempotent (input : Str)
    (h : ∀ s ∈ parsePackageList input,
      s.dropWhile Char.isWhitespace = s ∧
        (str "package:").isPrefixOf s = false) :
    parsePackageList (joinLines (parsePackageList input)) =
      parsePackageList input := by
  by_cases hout : parsePackageList input = []
  · rw [hout]
    decide
  · have hprops := fun s hs => parsePackageList_elem_props input s hs
    have htrim : jsTrim (joinLines (parsePackageList input)) =
        joinLines (parsePackageList input) :=
      jsTrim_joinLines _ (fun s hs => ⟨(hprops s hs).1, (hprops s hs).2.1⟩)
        (fun s hs => (h s hs).1)
    rw [parsePackageList_eq_filterMap, htrim, joinLines,
      List.splitOn_intercalate (parsePackageList input) (Char.ofNat 10)
        (fun l hl => (hprops l hl).2.2) hout]
    refine filterMap_eq_self_of_some _ _ (fun s hs => ?_)
    have hjs : jsTrim s = s := jsTrim_eq_self s (h s hs).1 (hprops s hs).2.1
    have hstrip : stripLine s = s := by
      rw [stripLine, if_neg (by simp [(h s hs).2])]
    rw [normalizeLine, hjs, if_neg (hprops s hs).1, hstrip,
      if_neg (hprops s hs).1]

/-- Closed instance of C6 (amended): a clean two-line input round-trips. -/
theorem c6_normalizer_idempotent_witness :
    parsePackageList (joinLines (parsePackageList (str "b\na"))) =
      parsePackageList (str "b\na") :=
  c6_normalizer_idempotent (str "b\na") (by decide)

theorem split_by_pred_unique {α : Type} (p : α → Prop) :
    ∀ (xs ys xs' ys' : List α), xs ++ ys = xs' ++ ys' →
      (∀ x ∈ xs, p x) → (∀ y ∈ ys, ¬p y) →
      (∀ x ∈ xs', p x) → (∀ y ∈ ys', ¬p y) → xs = xs' ∧ ys = ys' := by
  intro xs
  induction xs with
  | nil =>
    intro ys xs' ys' heq h1 h2 h3 h4
    cases xs' with
    | nil => exact ⟨rfl, heq⟩
    | cons b t' =>
      exfalso
      rw [List.nil_append] at heq
      exact h2 b (heq ▸ List.mem_append_left _ (List.mem_cons_self _ _))
        (h3 b (List.mem_cons_self _ _))
  | cons a t ih =>
    intro ys xs' ys' heq h1 h2 h3 h4
    cases xs' with
    | nil =>
      exfalso
      rw [List.nil_append] at heq
      exact h4 a (by rw [← heq]; exact List.mem_append_left _ (List.mem_cons_self _ _))
        (h1 a (List.mem_cons_self _ _))
    | cons b t' =>
      simp only [List.cons_append, List.cons.injEq] at heq
      obtain ⟨rfl, heq2⟩ := heq
      obtain ⟨h5, h6⟩ := ih ys t' ys' heq2
        (fun x hx => h1 x (List.mem_cons_of_mem _ hx)) h2
        (fun x hx => h3 x (List.mem_cons_of_mem _ hx)) h4
      exact ⟨by rw [h5], h6⟩

theorem sorted_mem_split (ks : List Nat) (hks : ks.Pairwise (· < ·)) (k : Nat)
    (hk : k ∈ ks) : ∃ ks₁ ks₂, ks = ks₁ ++ k :: ks₂ ∧
      (∀ j ∈ ks₁, j < k) ∧ (∀ j ∈ ks₂, k < j) := by
  obtain ⟨ks₁, ks₂, rfl⟩ := List.append_of_mem hk
  refine ⟨ks₁, ks₂, rfl, ?_, ?_⟩
  · intro j hj
    exact (List.pairwise_append.mp hks).2.2 j hj k (List.mem_cons_self _ _)
  · intro j hj
    exact (List.pairwise_cons.mp (List.pairwise_append.mp hks).2.1).1 j hj

theorem flatMap_nil_fun {α : Type} (ks : List Nat) :
    ks.flatMap (fun _ => ([] : List α)) = [] := by
  induction ks with
  | nil => rfl
  | cons k ks ih => rw [List.flatMap_cons, List.nil_append, ih]

theorem flatMap_congr {α : Type} (f g : Nat → List α) :
    ∀ (ks : List Nat), (∀ k ∈ ks, f k = g k) → ks.flatMap f = ks.flatMap g := by
  intro ks
  induction ks with
  | nil => intro _; rfl
  | cons k ks ih =>
    intro h
    rw [List.flatMap_cons, List.flatMap_cons, h k (List.mem_cons_self _ _),
      ih (fun j hj => h j (List.mem_cons_of_mem _ hj))]

theorem mergeSort_key_flatMap {α : Type} (key : α → Nat) (ks : List Nat)
    (hks : ks.Pairwise (· < ·)) :
    ∀ (l : List α), (∀ a ∈ l, key a ∈ ks) →
      l.mergeSort (fun a b => decide (key a ≤ key b)) =
        ks.flatMap (fun k => l.filter (fun a => key a == k)) := by
  have htrans : ∀ (a b c : α), (fun a b => decide (key a ≤ key b)) a b →
      (fun a b => decide (key a ≤ key b)) b c →
      (fun a b => decide (key a ≤ key b)) a c := by
    intro a b c
    simp only [decide_eq_true_eq]
    omega
  have htotal : ∀ (a b : α), ((fun a b => decide (key a ≤ key b)) a b ||
      (fun a b => decide (key a ≤ key b)) b a) := by
    intro a b
    simp only [Bool.or_eq_true, decide_eq_true_eq]
    omega
  intro l
  induction l with
  | nil =>
    intro _
    rw [List.mergeSort_nil]
    exact ((flatMap_congr _ _ ks (fun k _ => List.filter_nil _)).trans
      (flatMap_nil_fun ks)).symm
  | cons a t ih =>
    intro hmem
    obtain ⟨l₁, l₂, hsc, hst, hl₁⟩ := List.mergeSort_cons htrans htotal a t
    have hl₁' : ∀ b ∈ l₁, key b < key a := by
      intro b hb
      have := hl₁ b hb
      simp only [Bool.not_eq_true', decide_eq_false_iff_not] at this
      omega
    have hl₂' : ∀ b ∈ l₂, key a ≤ key b := by
      have hs := List.sorted_mergeSort htrans htotal (a :: t)
      rw [hsc] at hs
      intro b hb
      have := (List.pairwise_cons.mp (List.pairwise_append.mp hs).2.1).1 b hb
      simpa using this
    obtain ⟨ks₁, ks₂, hkeq, hks₁, hks₂⟩ :=
      sorted_mem_split ks hks (key a) (hmem a (List.mem_cons_self _ _))
    have hIH := ih (fun b hb => hmem b (List.mem_cons_of_mem _ hb))
    rw [hkeq] at hIH
    rw [List.flatMap_append, List.flatMap_cons] at hIH
    have hsplit := split_by_pred_unique (fun x => key x < key a)
      l₁ l₂
      (ks₁.flatMap (fun k => t.filter (fun x => key x == k)))
      (t.filter (fun x => key x == key a) ++
        ks₂.flatMap (fun k => t.filter (fun x => key x == k)))
      (by rw [hst] at hIH; exact hIH)
      hl₁' (fun y hy => by have := hl₂' y hy; omega)
      (by
        intro x hx
        obtain ⟨k, hk, hxk⟩ := List.mem_flatMap.mp hx
        have := (List.mem_filter.mp hxk).2
        simp only [beq_iff_eq] at this
        rw [this]
        exact hks₁ k hk)
      (by
        intro y hy
        rcases List.mem_append.mp hy with hy | hy
        · have := (List.mem_filter.mp hy).2
          simp only [beq_iff_eq] at this
          omega
        · obtain ⟨k, hk, hyk⟩ := List.mem_flatMap.mp hy
          have := (List.mem_filter.mp hyk).2
          simp only [beq_iff_eq] at this
          have := hks₂ k hk
          omega)
    obtain ⟨he₁, he₂⟩ := hsplit
    rw [hsc, hkeq, List.flatMap_append, List.flatMap_cons]
    have hf₁ : ks₁.flatMap (fun k => (a :: t).filter (fun x => key x == k)) =
        ks₁.flatMap (fun k => t.filter (fun x => key x == k)) := by
      refine flatMap_congr _ _ ks₁ (fun k hk => ?_)
      rw [List.filter_cons]
      rw [if_neg (by simp only [beq_iff_eq]; have := hks₁ k hk; omega)]
    have hf₂ : ks₂.flatMap (fun k => (a :: t).filter (fun x => key x == k)) =
        ks₂.flatMap (fun k => t.filter (fun x => key x == k)) := by
      refine flatMap_congr _ _ ks₂ (fun k hk => ?_)
      rw [List.filter_cons]
      rw [if_neg (by simp only [beq_iff_eq]; have := hks₂ k hk; omega)]
    have hfa : (a :: t).filter (fun x => key x == key a) =
        a :: t.filter (fun x => key x == key a) := by
      rw [List.filter_cons, if_pos (by simp)]
    rw [hf₁, hf₂, hfa, he₁, he₂]
    simp [List.append_assoc]

theorem lookupStr_some_mem {β : Type} (L : List (Str × β)) (c : Str) (v : β)
    (h : lookupStr L c = some v) : v ∈ L.map Prod.snd := by
  induction L with
  | nil => exact Option.noConfusion h
  | cons kv rest ih =>
    obtain ⟨k, w⟩ := kv
    rw [lookupStr] at h
    by_cases hk : k = c
    · rw [if_pos hk] at h
      obtain rfl := Option.some_inj.mp h
      rw [List.map_cons]
      exact List.mem_cons_self _ _
    · rw [if_neg hk] at h
      rw [List.map_cons]
      exact List.mem_cons_of_mem _ (ih h)

theorem categoryPriority_mem (c : Str) : categoryPriority c ∈ priorityKeys := by
  rw [categoryPriority]
  cases hval : lookupStr categoryOrderList c with
  | none => simp [priorityKeys, DEFAULT_CATEGORY_PRIORITY]
  | some v =>
    have hv := lookupStr_some_mem _ _ _ hval
    simp only [categoryOrderList, List.map_cons, List.map_nil, List.mem_cons,
      List.not_mem_nil, or_false] at hv
    simp only [Option.getD_some]
    rcases hv with rfl | rfl | rfl | rfl | rfl <;> decide

theorem sortedByPriority_eq_flatMap (packages : List DetectedPackage) :
    sortedByPriority packages =
      priorityKeys.flatMap (fun k =>
        packages.filter (fun p => categoryPriority p.category == k)) := by
  rw [sortedByPriority]
  exact mergeSort_key_flatMap (fun p => categoryPriority p.category) priorityKeys
    (by decide) packages (fun a _ => categoryPriority_mem a.category)

theorem groupsInsert_no_key (G : List (Str × List DetectedPackage)) (L : Str)
    (p : DetectedPackage) (hG : ∀ e ∈ G, e.1 ≠ L) :
    groupsInsert G L p = G ++ [(L, [p])] := by
  induction G with
  | nil => rfl
  | cons e rest ih =>
    obtain ⟨l, ps⟩ := e
    rw [groupsInsert, if_neg (hG (l, ps) (List.mem_cons_self _ _)),
      ih (fun x hx => hG x (List.mem_cons_of_mem _ hx)), List.cons_append]

theorem groupsInsert_with_key (G : List (Str × List DetectedPackage)) (L : Str)
    (acc : List DetectedPackage) (p : DetectedPackage) (hG : ∀ e ∈ G, e.1 ≠ L) :
    groupsInsert (G ++ [(L, acc)]) L p = G ++ [(L, acc ++ [p])] := by
  induction G with
  | nil => simp [groupsInsert]
  | cons e rest ih =>
    obtain ⟨l, ps⟩ := e
    rw [List.cons_append, groupsInsert, if_neg (hG (l, ps) (List.mem_cons_self _ _)),
      ih (fun x hx => hG x (List.mem_cons_of_mem _ hx)), List.cons_append]

theorem foldl_insert_block (L : Str) (blk : List DetectedPackage) :
    ∀ (G : List (Str × List DetectedPackage)) (acc : List DetectedPackage),
      (∀ p ∈ blk, categoryLabel p.category = L) → (∀ e ∈ G, e.1 ≠ L) →
      blk.foldl (fun groups pkg => groupsInsert groups (categoryLabel pkg.category) pkg)
        (G ++ [(L, acc)]) = G ++ [(L, acc ++ blk)] := by
  induction blk with
  | nil =>
    intro G acc _ _
    simp
  | cons p rest ih =>
    intro G acc hlab hG
    rw [List.foldl_cons]
    have hstep : groupsInsert (G ++ [(L, acc)]) (categoryLabel p.category) p =
        G ++ [(L, acc ++ [p])] := by
      rw [hlab p (List.mem_cons_self _ _)]
      exact groupsInsert_with_key G L acc p hG
    rw [hstep, ih G (acc ++ [p]) (fun q hq => hlab q (List.mem_cons_of_mem _ hq)) hG]
    simp

theorem foldl_insert_blocks (bs : List (Str × List DetectedPackage)) :
    ∀ (G : List (Str × List DetectedPackage)),
      (∀ e ∈ bs, ∀ p ∈ e.2, categoryLabel p.category = e.1) →
      (∀ e ∈ bs, ∀ g ∈ G, g.1 ≠ e.1) →
      (bs.map Prod.fst).Nodup →
      (bs.flatMap Prod.snd).foldl
          (fun groups pkg => groupsInsert groups (categoryLabel pkg.category) pkg) G =
        G ++ bs.filterMap (fun e => if e.2 = [] then none else some e) := by
  induction bs with
  | nil =>
    intro G _ _ _
    simp
  | cons e rest ih =>
    intro G hlab hdisj hnd
    obtain ⟨L, B⟩ := e
    rw [List.flatMap_cons, List.foldl_append]
    by_cases hB : B = []
    · subst hB
      rw [List.foldl_nil,
        ih G (fun e he => hlab e (List.mem_cons_of_mem _ he))
          (fun e he g hg => hdisj e (List.mem_cons_of_mem _ he) g hg)
          ((List.nodup_cons.mp hnd).2),
        List.filterMap_cons_none (by simp)]
    · cases B with
      | nil => exact absurd rfl hB
      | cons p B' =>
        rw [List.foldl_cons]
        have hstep : groupsInsert G (categoryLabel p.category) p = G ++ [(L, [p])] := by
          rw [hlab (L, p :: B') (List.mem_cons_self _ _) p (List.mem_cons_self _ _)]
          exact groupsInsert_no_key G L p
            (fun g hg => hdisj (L, p :: B') (List.mem_cons_self _ _) g hg)
        rw [hstep,
          foldl_insert_block L B' G [p]
            (fun q hq => hlab (L, p :: B') (List.mem_cons_self _ _) q
              (List.mem_cons_of_mem _ hq))
            (fun g hg => hdisj (L, p :: B') (List.mem_cons_self _ _) g hg)]
        have hLnotin : L ∉ rest.map Prod.fst := (List.nodup_cons.mp hnd).1
        rw [ih (G ++ [(L, [p] ++ B')])
          (fun e he => hlab e (List.mem_cons_of_mem _ he))
          (fun e he g hg => by
            rcases List.mem_append.mp hg with hg | hg
            · exact hdisj e (List.mem_cons_of_mem _ he) g hg
            · rw [List.mem_singleton] at hg
              subst hg
              intro hcontra
              apply hLnotin
              rw [show L = e.1 from hcontra]
              exact List.mem_map_of_mem Prod.fst he)
          ((List.nodup_cons.mp hnd).2)]
        simp [List.filterMap_cons]

theorem priority_filter_eq_category (pkgs : List DetectedPackage)
    (h : ∀ p ∈ pkgs, p.category ∈ knownCategories) (c : Str) (k : Nat)
    (hk : categoryPriority c = k)
    (hinj : ∀ c' ∈ knownCategories, categoryPriority c' = k → c' = c) :
    pkgs.filter (fun p => categoryPriority p.category == k) =
      pkgs.filter (fun p => p.category == c) := by
  refine List.filter_congr (fun p hp => ?_)
  by_cases hpc : p.category = c
  · rw [hpc, hk]
    simp
  · have h1 : categoryPriority p.category ≠ k :=
      fun hcontra => hpc (hinj p.category (h p hp) hcontra)
    simp [h1, hpc]

theorem priority_filter_default (pkgs : List DetectedPackage)
    (h : ∀ p ∈ pkgs, p.category ∈ knownCategories) :
    pkgs.filter (fun p => categoryPriority p.category == 999) = [] := by
  refine List.filter_eq_nil_iff.mpr (fun p hp => ?_)
  have hmem := h p hp
  simp only [knownCategories, List.mem_cons, List.not_mem_nil, or_false] at hmem
  rcases hmem with hc | hc | hc | hc | hc <;> rw [hc] <;> decide

/-- C8: the displayed grouping is a stable sort on category priority — the
sorted list is the concatenation of the priority-filtered sublists in key
order, with the defensive priority (999, any category outside the fixed
set) last; and when every category is in the closed set, `groupByCategory`
is exactly the five fixed labeled groups in brand, chipset, generic,
suspicious, system order, each containing its category's entries in input
order (empty groups omitted). -/
theorem c8_group_by_category (packages : List DetectedPackage) :
    sortedByPriority packages =
      priorityKeys.flatMap (fun k =>
        packages.filter (fun p => categoryPriority p.category == k)) ∧
    ((∀ p ∈ packages, p.category ∈ knownCategories) →
      groupByCategory packages =
        knownCategories.filterMap (fun c =>
          if packages.filter (fun p => p.category == c) = [] then none
          else some (categoryLabel c, packages.filter (fun p => p.category == c)))) := by
  refine ⟨sortedByPriority_eq_flatMap packages, fun h => ?_⟩
  have hbs : priorityKeys.flatMap (fun k =>
      packages.filter (fun p => categoryPriority p.category == k)) =
      (knownCategories.map (fun c =>
        (categoryLabel c, packages.filter (fun p => p.category == c)))).flatMap
        Prod.snd := by
    rw [priorityKeys, knownCategories]
    rw [List.flatMap_cons, List.flatMap_cons, List.flatMap_cons, List.flatMap_cons,
      List.flatMap_cons, List.flatMap_cons, List.flatMap_nil]
    rw [List.map_cons, List.map_cons, List.map_cons, List.map_cons, List.map_cons,
      List.map_nil]
    rw [List.flatMap_cons, List.flatMap_cons, List.flatMap_cons, List.flatMap_cons,
      List.flatMap_cons, List.flatMap_nil]
    rw [priority_filter_eq_category packages h (str "brand") 0 (by decide) (by decide),
      priority_filter_eq_category packages h (str "chipset") 1 (by decide) (by decide),
      priority_filter_eq_category packages h (str "generic") 2 (by decide) (by decide),
      priority_filter_eq_category packages h (str "suspicious") 3 (by decide) (by decide),
      priority_filter_eq_category packages h (str "system") 4 (by decide) (by decide),
      priority_filter_default packages h]
    simp
  rw [groupByCategory, sortedByPriority_eq_flatMap packages, hbs,
    foldl_insert_blocks _ []
      (by
        intro e he q hq
        obtain ⟨c, -, rfl⟩ := List.mem_map.mp he
        have hqc := (List.mem_filter.mp hq).2
        simp only [beq_iff_eq] at hqc
        rw [hqc])
      (by
        intro e _ g hg
        exact absurd hg (List.not_mem_nil g))
      (by
        rw [List.map_map]
        have hfst : List.map (Prod.fst ∘ fun c => (categoryLabel c,
            packages.filter (fun p => p.category == c))) knownCategories =
            knownCategories.map categoryLabel := rfl
        rw [hfst]
        decide),
    List.nil_append, List.filterMap_map]
  rfl

/-- Closed instance of C8: a single generic-category package forms exactly
the one `Generic Bloatware` group. -/
theorem c8_group_by_category_witness :
    groupByCategory
        [⟨str "com.y", str "com.y", [], none, none, none, str "generic", true⟩] =
      [(str "Generic Bloatware",
        [⟨str "com.y", str "com.y", [], none, none, none, str "generic", true⟩])] := by
  have h := (c8_group_by_category
    [⟨str "com.y", str "com.y", [], none, none, none, str "generic", true⟩]).2
    (by decide)
  rw [h]
  decide
